import Mathlib

/-!
Shallow embedding of the `frequency` repository (src/program.py and
src/chinese_processor.py): the tokenization, filtering and frequency-ranking
pipeline, the per-file accumulation loop of `main`, and the dictionary lookup.
External collaborators (opencc's `convert`, jieba's `lcut`, the HTTP client)
are modelled as explicit function parameters or small result types.
-/

namespace Frequency

open List

/-- Distinct tokens of `ws` in first-encounter order.  This is the key order of
the Python `Counter(all_words)` dictionary: since Python 3.7 a dict iterates its
keys in insertion order, and `Counter(list)` inserts each key at its first
occurrence. -/
def dedupFirst : List String → List String
  | [] => []
  | w :: ws => w :: (dedupFirst ws).filter (fun x => x != w)

/-- The (token, count) items of `Counter(ws)` in the Counter's iteration
order: distinct tokens in first-encounter order, each with its number of
occurrences in `ws`. -/
def counterItems (ws : List String) : List (String × Nat) :=
  (dedupFirst ws).map (fun t => (t, ws.count t))

/-- The sort relation used by `Counter.most_common`: descending by count.
`countDesc p q` holds when `p` may come before `q` in the ranked output. -/
def countDesc (p q : String × Nat) : Prop := q.2 ≤ p.2

instance : DecidableRel countDesc :=
  fun p q => inferInstanceAs (Decidable (q.2 ≤ p.2))

instance : IsTotal (String × Nat) countDesc :=
  ⟨fun a b => Nat.le_total b.2 a.2⟩

instance : IsTrans (String × Nat) countDesc :=
  ⟨fun a b c hab hbc => Nat.le_trans hbc hab⟩

/-- Embeds `Counter(ws).most_common(n)` (src/program.py line 86,
src/chinese_processor.py line 113).  CPython's `most_common(n)` is
`heapq.nlargest(n, self.items(), key=itemgetter(1))`, documented as equivalent
to a stable sort by descending count truncated to `n` elements; for `n <= 0`
`nlargest` returns `[]`.  The stable sort is modelled by Mathlib's (stable)
`List.insertionSort`. -/
def most_common (ws : List String) (n : Int) : List (String × Nat) :=
  if n ≤ 0 then [] else (List.insertionSort countDesc (counterItems ws)).take n.toNat

/-- The filtering list comprehension of `TextProcessor._clean_text`
(src/program.py lines 46-50): keep a word when it is in neither the stopword
set nor the custom filter set. -/
def filterTokensEn (stop custom : List String) (words : List String) : List String :=
  words.filter (fun w => decide (w ∉ stop) && decide (w ∉ custom))

/-- The filtering list comprehension of `ChineseTextProcessor._process_content`
(src/chinese_processor.py lines 65-70): keep a word when `len(word) > 1` and it
is in neither the stopword set nor the custom filter set. -/
def filterTokensZh (stop custom : List String) (words : List String) : List String :=
  words.filter (fun w => decide (1 < w.length) && decide (w ∉ stop) && decide (w ∉ custom))

/-- The filter that claim C5 describes for the Chinese variant, written from
the spec's words for comparison with `filterTokensZh`: drop a token when it is
in either set or its character length is exactly 1. -/
def specFilterZh (stop custom : List String) (words : List String) : List String :=
  words.filter (fun w => decide (w ∉ stop) && decide (w ∉ custom) && decide (w.length ≠ 1))

/-- Test for the CJK range of the regular expression `[^一-鿿]`
(src/chinese_processor.py line 61). -/
def inCJK (c : Char) : Bool := 0x4E00 ≤ c.toNat && c.toNat ≤ 0x9FFF

/-- Embeds `re.sub(r'[^一-鿿]', ' ', text)` (src/chinese_processor.py
line 61): the pattern is a single-character class, so every character outside
the CJK range is replaced by one space. -/
def rangeFilter (s : String) : String :=
  String.mk (s.data.map (fun c => if inCJK c then c else ' '))

/-- Embeds `ChineseTextProcessor._process_content` (src/chinese_processor.py
lines 56-72), parameterized by the external converter (`opencc` `convert`) and
segmenter (`jieba.lcut`): convert, range-filter, segment, then filter. -/
def process_content (convert : String → String) (cut : String → List String)
    (stop custom : List String) (text : String) : List String :=
  let converted := convert text
  let normalized := rangeFilter converted
  let words := cut normalized
  filterTokensZh stop custom words

/-- A sample converter used to show the normalization order is observable: it
rewrites the non-CJK character `A` to the CJK character `中`. -/
def demoConvert : String → String :=
  fun s => String.mk (s.data.map (fun c => if c = 'A' then '中' else c))

/-- Models Python `str.lower` on the ASCII range (src/program.py line 44
applies `text.lower()`; the texts in the claims are ASCII, where `lower` maps
exactly the letters A-Z to a-z). -/
def asciiLower (s : String) : String :=
  String.mk (s.data.map (fun c => if 'A' ≤ c ∧ c ≤ 'Z' then Char.ofNat (c.toNat + 32) else c))

/-- Word characters of the regular expression `\w` on the ASCII range:
letters, digits and the underscore. -/
def isWordChar (c : Char) : Bool := c.isAlphanum || c == '_'

/-- Accumulator-based scan extracting maximal runs of word characters.
`acc` holds the current run, reversed. -/
def findWordsAux : List Char → List Char → List String
  | [], acc => if acc.isEmpty then [] else [String.mk acc.reverse]
  | c :: cs, acc =>
    if isWordChar c then findWordsAux cs (c :: acc)
    else if acc.isEmpty then findWordsAux cs []
    else String.mk acc.reverse :: findWordsAux cs []

/-- Embeds `self.word_pattern.findall(text)` with
`word_pattern = re.compile(r'\b\w+\b', re.UNICODE)` (src/program.py lines 18
and 45): the matches of `\b\w+\b` are exactly the maximal runs of word
characters, in order. -/
def findWords (s : String) : List String := findWordsAux s.data []

/-- Embeds `TextProcessor._clean_text` (src/program.py lines 43-51):
lowercase, extract words, filter against the stopword and custom sets. -/
def clean_text (stop custom : List String) (text : String) : List String :=
  filterTokensEn stop custom (findWords (asciiLower text))

/-- The per-file extraction failure of §7 of the spec (`UnreadableFileError`):
unopenable file, corrupt container or invalid encoding. -/
inductive ExtractError where
  | unreadable
deriving DecidableEq

/-- Embeds the accumulation loop of `main` (src/program.py lines 81-83,
src/chinese_processor.py lines 106-109): `all_words = []` then
`for file in args.files: all_words.extend(processor.process_file(file))`.
Each file's extraction either yields its token list or raises; the loop body
has no exception handler, so the first failure propagates out of `main`. -/
def runFiles : List (Except ExtractError (List String)) → Except ExtractError (List String)
  | [] => Except.ok []
  | r :: rs =>
    match r with
    | Except.error e => Except.error e
    | Except.ok ws =>
      match runFiles rs with
      | Except.error e => Except.error e
      | Except.ok rest => Except.ok (ws ++ rest)

/-- The token list claim C2 predicts for a run with failures, written from the
spec's words for comparison with `runFiles`: the concatenation of the token
lists of only the files that succeeded. -/
def specSuccessTokens (rs : List (Except ExtractError (List String))) : List String :=
  rs.foldr (fun r acc => match r with | Except.ok ws => ws ++ acc | Except.error _ => acc) []

/-- Embeds the accumulation across files, as a function of the per-file token
lists: `all_words` after the loop is the in-order concatenation. -/
def accumulate (files : List (List String)) : List String :=
  files.foldl (fun acc ws => acc ++ ws) []

/-- Outcome of `requests.get` as seen by `get_definitions`: either the request
raises a transport error (`requests.exceptions.RequestException`), or it
returns a response with a status code and a body. -/
inductive HttpResult where
  | transportError
  | response (status : Nat) (body : String)

/-- Stage one of `DictionaryAPI.get_definitions` (src/program.py lines 58-65)
and `ChineseDictionaryAPI.get_definitions` (src/chinese_processor.py lines
78-87), before the `except` clause: a transport error raises; on a 200
response `response.json()` either parses (`parseJson body = some v`) or raises
(`requests.exceptions.JSONDecodeError`, a `RequestException`, and in the
Chinese variant any `Exception`); any other status returns `None`. -/
def getDefinitionsAttempt {α : Type} (parseJson : String → Option α) :
    HttpResult → Except Unit (Option α)
  | HttpResult.transportError => Except.error ()
  | HttpResult.response status body =>
    if status == 200 then
      match parseJson body with
      | some v => Except.ok (some v)
      | none => Except.error ()
    else Except.ok none

/-- Embeds `get_definitions` with its `try`/`except` wrapper: every raised
error is caught and mapped to `None`. -/
def get_definitions {α : Type} (parseJson : String → Option α) (r : HttpResult) : Option α :=
  match getDefinitionsAttempt parseJson r with
  | Except.error _ => none
  | Except.ok v => v

/-- A sample body parser for witnesses: the body `"ok"` parses, all else is
malformed. -/
def demoParse : String → Option Unit :=
  fun s => if s = "ok" then some () else none

/-! Helper lemmas. -/

theorem mem_dedupFirst {t : String} : ∀ {ws : List String}, t ∈ dedupFirst ws ↔ t ∈ ws := by
  intro ws
  induction ws with
  | nil => simp [dedupFirst]
  | cons w ws ih =>
    simp only [dedupFirst, List.mem_cons, List.mem_filter, bne_iff_ne, ih]
    constructor
    · rintro (rfl | ⟨h, _⟩)
      · exact Or.inl rfl
      · exact Or.inr h
    · rintro (rfl | h)
      · exact Or.inl rfl
      · by_cases hw : t = w
        · exact Or.inl hw
        · exact Or.inr ⟨h, hw⟩

theorem nodup_dedupFirst : ∀ ws : List String, (dedupFirst ws).Nodup
  | [] => List.nodup_nil
  | w :: ws => by
    simp only [dedupFirst]
    refine List.Nodup.cons ?_ (List.Nodup.filter _ (nodup_dedupFirst ws))
    intro hmem
    have := (List.mem_filter.mp hmem).2
    simp at this

theorem map_fst_counterItems (ws : List String) :
    (counterItems ws).map Prod.fst = dedupFirst ws := by
  rw [counterItems, List.map_map]
  have h : (Prod.fst ∘ fun t => (t, ws.count t)) = (id : String → String) := rfl
  rw [h, List.map_id]

theorem filter_insertionSort_eq (c : Nat) (l : List (String × Nat)) :
    (List.insertionSort countDesc l).filter (fun p => p.2 == c) =
      l.filter (fun p => p.2 == c) := by
  have hperm : (List.insertionSort countDesc l).filter (fun p => p.2 == c) ~
      l.filter (fun p => p.2 == c) :=
    (List.perm_insertionSort countDesc l).filter _
  have hpw : (l.filter (fun p => p.2 == c)).Pairwise countDesc := by
    refine List.pairwise_of_forall_mem_list ?_
    intro a ha b hb
    have ha2 : a.2 = c := by simpa using (List.mem_filter.mp ha).2
    have hb2 : b.2 = c := by simpa using (List.mem_filter.mp hb).2
    simp [countDesc, ha2, hb2]
  have hsub : l.filter (fun p => p.2 == c) <+ List.insertionSort countDesc l :=
    List.sublist_insertionSort hpw (List.filter_sublist l)
  have hsub2 : l.filter (fun p => p.2 == c) <+
      (List.insertionSort countDesc l).filter (fun p => p.2 == c) := by
    have h2 := hsub.filter (fun p => p.2 == c)
    rw [List.filter_filter] at h2
    simpa using h2
  exact (hsub2.eq_of_length hperm.length_eq.symm).symm

theorem pair_dedupFirst_indexOf :
    ∀ {ws : List String} {t u : String}, [t, u] <+ dedupFirst ws →
      ws.indexOf t < ws.indexOf u := by
  intro ws
  induction ws with
  | nil =>
    intro t u h
    simp only [dedupFirst] at h
    exact absurd (List.sublist_nil.mp h) (by simp)
  | cons w ws ih =>
    intro t u h
    simp only [dedupFirst] at h
    cases h with
    | cons a h' =>
      have ht : t ∈ (dedupFirst ws).filter (fun x => x != w) := h'.subset (by simp)
      have hu : u ∈ (dedupFirst ws).filter (fun x => x != w) := h'.subset (by simp)
      have htw : t ≠ w := by simpa using (List.mem_filter.mp ht).2
      have huw : u ≠ w := by simpa using (List.mem_filter.mp hu).2
      have h'' : [t, u] <+ dedupFirst ws := h'.trans (List.filter_sublist _)
      have hlt := ih h''
      rw [List.indexOf_cons_ne _ (Ne.symm htw), List.indexOf_cons_ne _ (Ne.symm huw)]
      omega
    | cons₂ a h' =>
      have hu : u ∈ (dedupFirst ws).filter (fun x => x != w) := h'.subset (by simp)
      have huw : u ≠ w := by simpa using (List.mem_filter.mp hu).2
      rw [List.indexOf_cons_self, List.indexOf_cons_ne _ (Ne.symm huw)]
      exact Nat.succ_pos _

theorem count_filter_eq (f : String → Bool) (ws : List String) (w : String) :
    (ws.filter f).count w = if f w then ws.count w else 0 := by
  by_cases h : f w
  · rw [if_pos h, List.count_filter h]
  · rw [if_neg h, List.count_eq_zero]
    intro hmem
    exact h (List.mem_filter.mp hmem).2

theorem mem_counterItems {t : String} {c : Nat} {ws : List String} :
    (t, c) ∈ counterItems ws ↔ t ∈ ws ∧ c = ws.count t := by
  constructor
  · intro h
    obtain ⟨a, ha, heq⟩ := List.mem_map.mp h
    have h1 : a = t := congrArg Prod.fst heq
    have h2 : ws.count a = c := congrArg Prod.snd heq
    subst h1
    subst h2
    exact ⟨mem_dedupFirst.mp ha, rfl⟩
  · rintro ⟨ht, rfl⟩
    exact List.mem_map.mpr ⟨t, mem_dedupFirst.mpr ht, rfl⟩

theorem accumulate_eq_flatten (files : List (List String)) :
    accumulate files = files.flatten := by
  suffices h : ∀ init, files.foldl (fun acc ws => acc ++ ws) init = init ++ files.flatten by
    simpa [accumulate] using h []
  induction files with
  | nil => intro init; simp
  | cons f fs ih => intro init; simp [ih, List.append_assoc]

/-! Claim theorems. -/

/-- C1: for every accumulated token list, the ranked output of
`Counter(all_words).most_common(args.top)` is ordered by descending count,
tokens with equal counts appear in first-encountered order (their first
occurrence indices in the accumulated list increase along the output), and in
particular `most_common ["a","b","a","b"] 2 = [("a",2),("b",2)]`, never with
`"b"` first. -/
theorem most_common_desc_stable (ws : List String) (n : Int) :
    List.Pairwise (fun p q : String × Nat => q.2 ≤ p.2) (most_common ws n) ∧
    (∀ t u c, [(t, c), (u, c)] <+ most_common ws n → ws.indexOf t < ws.indexOf u) ∧
    most_common ["a", "b", "a", "b"] 2 = [("a", 2), ("b", 2)] := by
  refine ⟨?_, ?_, by decide⟩
  · by_cases hn : n ≤ 0
    · simp [most_common, hn]
    · have hs : List.Pairwise countDesc (List.insertionSort countDesc (counterItems ws)) :=
        List.sorted_insertionSort countDesc (counterItems ws)
      rw [most_common, if_neg hn]
      exact List.Pairwise.sublist (List.take_sublist _ _) hs
  · intro t u c h
    by_cases hn : n ≤ 0
    · rw [most_common, if_pos hn] at h
      exact absurd (List.sublist_nil.mp h) (by simp)
    · rw [most_common, if_neg hn] at h
      have h1 : [(t, c), (u, c)] <+ List.insertionSort countDesc (counterItems ws) :=
        h.trans (List.take_sublist _ _)
      have h2 : [(t, c), (u, c)].filter (fun p => p.2 == c) <+
          (List.insertionSort countDesc (counterItems ws)).filter (fun p => p.2 == c) :=
        h1.filter _
      rw [filter_insertionSort_eq] at h2
      have h3 : [(t, c), (u, c)] <+ (counterItems ws).filter (fun p => p.2 == c) := by
        simpa using h2
      have h4 : [(t, c), (u, c)] <+ counterItems ws := h3.trans (List.filter_sublist _)
      have h5 : [t, u] <+ (counterItems ws).map Prod.fst := by
        simpa using h4.map Prod.fst
      rw [map_fst_counterItems] at h5
      exact pair_dedupFirst_indexOf h5

/-- Witness for C1 at the accumulated list `["a","b","a","b"]` with `n = 2`. -/
theorem most_common_desc_stable_witness :
    List.Pairwise (fun p q : String × Nat => q.2 ≤ p.2) (most_common ["a", "b", "a", "b"] 2) ∧
    (["a", "b", "a", "b"] : List String).indexOf "a" <
      (["a", "b", "a", "b"] : List String).indexOf "b" ∧
    most_common ["a", "b", "a", "b"] 2 = [("a", 2), ("b", 2)] :=
  ⟨(most_common_desc_stable ["a", "b", "a", "b"] 2).1,
   (most_common_desc_stable ["a", "b", "a", "b"] 2).2.1 "a" "b" 2 (by decide),
   (most_common_desc_stable ["a", "b", "a", "b"] 2).2.2⟩

/-- C3: for every non-empty token list and every `n` at least the number of
distinct tokens, `most_common n` returns every distinct token exactly once (the
output is a permutation of the Counter's items and its keys are duplicate-free)
with each token paired with its true occurrence count. -/
theorem most_common_complete (ws : List String) (n : Int) (hne : ws ≠ [])
    (hn : ((dedupFirst ws).length : Int) ≤ n) :
    most_common ws n ~ counterItems ws ∧
    (∀ t ∈ ws, (t, ws.count t) ∈ most_common ws n) ∧
    (∀ p ∈ most_common ws n, p.2 = ws.count p.1) ∧
    ((most_common ws n).map Prod.fst).Nodup := by
  have hpos : ¬ n ≤ 0 := by
    have h1 : dedupFirst ws ≠ [] := by
      cases ws with
      | nil => exact absurd rfl hne
      | cons w ws => simp [dedupFirst]
    have h2 : 1 ≤ (dedupFirst ws).length := by
      cases hh : dedupFirst ws with
      | nil => exact absurd hh h1
      | cons a l => simp
    omega
  have hlen : (counterItems ws).length ≤ n.toNat := by
    have h3 : (counterItems ws).length = (dedupFirst ws).length := by
      simp [counterItems]
    omega
  have heq : most_common ws n = List.insertionSort countDesc (counterItems ws) := by
    rw [most_common, if_neg hpos, List.take_of_length_le]
    rw [List.length_insertionSort]
    exact hlen
  have hperm : most_common ws n ~ counterItems ws := by
    rw [heq]
    exact List.perm_insertionSort countDesc (counterItems ws)
  refine ⟨hperm, ?_, ?_, ?_⟩
  · intro t ht
    exact hperm.mem_iff.mpr (List.mem_map.mpr ⟨t, mem_dedupFirst.mpr ht, rfl⟩)
  · intro p hp
    obtain ⟨t, _, rfl⟩ := List.mem_map.mp (hperm.subset hp)
    rfl
  · have hmap : (most_common ws n).map Prod.fst ~ dedupFirst ws := by
      rw [← map_fst_counterItems ws]
      exact hperm.map Prod.fst
    exact hmap.nodup_iff.mpr (nodup_dedupFirst ws)

/-- Witness for C3 at `ws = ["a","b","a"]` (2 distinct tokens) and `n = 5`. -/
theorem most_common_complete_witness :
    (most_common ["a", "b", "a"] 5 ~ counterItems ["a", "b", "a"]) ∧
    (∀ t ∈ (["a", "b", "a"] : List String),
      (t, (["a", "b", "a"] : List String).count t) ∈ most_common ["a", "b", "a"] 5) ∧
    (∀ p ∈ most_common ["a", "b", "a"] 5, p.2 = (["a", "b", "a"] : List String).count p.1) ∧
    ((most_common ["a", "b", "a"] 5).map Prod.fst).Nodup :=
  most_common_complete ["a", "b", "a"] 5 (by decide) (by decide)

/-- C4: for every token list and every `n ≤ 0` (zero or negative), `top`
(`most_common n`) returns the empty sequence and does not raise. -/
theorem most_common_nonpos_eq_nil (ws : List String) (n : Int) (hn : n ≤ 0) :
    most_common ws n = [] := by
  simp [most_common, hn]

/-- Witness for C4 at `n = 0` and `n = -3`. -/
theorem most_common_nonpos_witness :
    most_common ["a", "b", "a"] 0 = [] ∧ most_common ["a", "b", "a"] (-3) = [] :=
  ⟨most_common_nonpos_eq_nil ["a", "b", "a"] 0 (by decide),
   most_common_nonpos_eq_nil ["a", "b", "a"] (-3) (by decide)⟩

/-- C5 counterexample: the claim predicts that the Chinese filter keeps every
token that is in neither set and does not have character length exactly 1, so
on the token list `[""]` (an empty-string token, length 0) with empty sets it
predicts the output `[""]`; the code's filter keeps only tokens with
`len(word) > 1` and drops it. -/
theorem filterTokensZh_spec_mismatch :
    filterTokensZh [] [] [""] = [] ∧ specFilterZh [] [] [""] = [""] ∧
    filterTokensZh [] [] [""] ≠ specFilterZh [] [] [""] := by decide

/-- C5 (amended): for every token sequence, stopword set and custom filter set,
the English filter returns exactly the order-preserving subsequence of tokens
in neither set (union semantics), and the Chinese filter additionally drops
every token of character length at most 1 (the code keeps only tokens with
`len(word) > 1`): each output is a sublist of the input, and a token's
multiplicity in the output is its input multiplicity when it satisfies the
keep-condition and zero otherwise — so no dropped token reappears. -/
theorem filter_tokens_characterization (stop custom ws : List String) :
    (filterTokensEn stop custom ws <+ ws) ∧
    (∀ w, (filterTokensEn stop custom ws).count w =
      if w ∉ stop ∧ w ∉ custom then ws.count w else 0) ∧
    (filterTokensZh stop custom ws <+ ws) ∧
    (∀ w, (filterTokensZh stop custom ws).count w =
      if 1 < w.length ∧ w ∉ stop ∧ w ∉ custom then ws.count w else 0) := by
  refine ⟨List.filter_sublist ws, ?_, List.filter_sublist ws, ?_⟩
  · intro w
    rw [filterTokensEn, count_filter_eq]
    by_cases h1 : w ∈ stop <;> by_cases h2 : w ∈ custom <;> simp [h1, h2]
  · intro w
    rw [filterTokensZh, count_filter_eq]
    by_cases h0 : 1 < w.length <;> by_cases h1 : w ∈ stop <;> by_cases h2 : w ∈ custom <;>
      simp [h0, h1, h2]

/-- C6: for every input text (and any external converter and segmenter), the
Chinese normalizer applies Traditional-to-Simplified conversion first and the
CJK range substitution afterwards: the token source handed to the segmenter is
exactly `rangeFilter (convert text)`.  The order is observable: for a
converter rewriting `A` to `中`, skipping the conversion or running it after
the range filter gives a different normalized text. -/
theorem process_content_convert_first (convert : String → String)
    (cut : String → List String) (stop custom : List String) (text : String) :
    process_content convert cut stop custom text =
      filterTokensZh stop custom (cut (rangeFilter (convert text))) ∧
    rangeFilter (demoConvert "A") ≠ rangeFilter "A" ∧
    rangeFilter (demoConvert "A") ≠ demoConvert (rangeFilter "A") :=
  ⟨rfl, by decide, by decide⟩

/-- C7: the final frequency table does not depend on the order in which the
per-file token lists are supplied and accumulated: for permuted file lists,
every token's final count is unchanged, and the Counter holds exactly the same
(token, count) items. -/
theorem accumulate_count_perm_invariant (fss gss : List (List String)) (h : fss ~ gss) :
    (∀ t, (accumulate fss).count t = (accumulate gss).count t) ∧
    (∀ t c, ((t, c) ∈ counterItems (accumulate fss) ↔ (t, c) ∈ counterItems (accumulate gss))) := by
  have hperm : accumulate fss ~ accumulate gss := by
    rw [accumulate_eq_flatten, accumulate_eq_flatten]
    exact h.flatten
  refine ⟨fun t => hperm.count_eq t, ?_⟩
  intro t c
  rw [mem_counterItems, mem_counterItems, hperm.mem_iff, hperm.count_eq]

/-- Witness for C7 at the file lists `[["a"], ["b", "a"]]` and
`[["b", "a"], ["a"]]`. -/
theorem accumulate_count_perm_invariant_witness :
    (∀ t, (accumulate [["a"], ["b", "a"]]).count t = (accumulate [["b", "a"], ["a"]]).count t) ∧
    (∀ t c, ((t, c) ∈ counterItems (accumulate [["a"], ["b", "a"]]) ↔
      (t, c) ∈ counterItems (accumulate [["b", "a"], ["a"]]))) :=
  accumulate_count_perm_invariant [["a"], ["b", "a"]] [["b", "a"], ["a"]] (by decide)

/-- C2 counterexample: for the run `[ok ["a"], unreadable, ok ["b"]]` the
claim predicts that the failure is skipped and the final table is built from
the tokens `["a", "b"]` of the files that succeeded; the accumulation loop has
no exception handler, so the run aborts with the failure and produces no
table at all. -/
theorem runFiles_not_isolating :
    runFiles [Except.ok ["a"], Except.error ExtractError.unreadable, Except.ok ["b"]] =
      Except.error ExtractError.unreadable ∧
    specSuccessTokens [Except.ok ["a"], Except.error ExtractError.unreadable, Except.ok ["b"]] =
      ["a", "b"] ∧
    runFiles [Except.ok ["a"], Except.error ExtractError.unreadable, Except.ok ["b"]] ≠
      Except.ok (specSuccessTokens
        [Except.ok ["a"], Except.error ExtractError.unreadable, Except.ok ["b"]]) := by
  refine ⟨rfl, rfl, ?_⟩
  intro h
  exact Except.noConfusion h

/-- C2 (amended): the accumulation loop has no per-file error handling: when
every file's extraction succeeds the loop yields the in-order concatenation of
their tokens, but as soon as any file fails the whole run raises (the first
failure propagates), so no frequency table is produced from the remaining
files. -/
theorem runFiles_abort_on_error (rs : List (Except ExtractError (List String))) :
    ((∀ r ∈ rs, ∃ ws, r = Except.ok ws) → runFiles rs = Except.ok (specSuccessTokens rs)) ∧
    (∀ e, Except.error e ∈ rs → ∃ e', runFiles rs = Except.error e') := by
  induction rs with
  | nil =>
    refine ⟨fun _ => rfl, ?_⟩
    intro e he
    exact absurd he (by simp)
  | cons r rs ih =>
    constructor
    · intro hall
      obtain ⟨ws, rfl⟩ := hall r (List.mem_cons_self r rs)
      have hrest := ih.1 (fun r' hr' => hall r' (List.mem_cons_of_mem _ hr'))
      simp [runFiles, hrest, specSuccessTokens]
    · intro e he
      rcases List.mem_cons.mp he with heq | hmem
      · exact ⟨e, by rw [← heq]; rfl⟩
      · obtain ⟨e', he'⟩ := ih.2 e hmem
        cases r with
        | error e'' => exact ⟨e'', rfl⟩
        | ok ws => exact ⟨e', by simp [runFiles, he']⟩

/-- Witness for C2 (amended): an all-successful run concatenates, and a run
with a failing file aborts with an error. -/
theorem runFiles_abort_on_error_witness :
    runFiles [Except.ok ["a"], Except.ok ["b"]] =
      Except.ok (specSuccessTokens [Except.ok ["a"], Except.ok ["b"]]) ∧
    ∃ e', runFiles [Except.ok ["a"], Except.error ExtractError.unreadable] =
      Except.error e' :=
  ⟨(runFiles_abort_on_error [Except.ok ["a"], Except.ok ["b"]]).1 (by
      intro r hr
      rcases List.mem_cons.mp hr with rfl | hr2
      · exact ⟨["a"], rfl⟩
      · rcases List.mem_cons.mp hr2 with rfl | hr3
        · exact ⟨["b"], rfl⟩
        · exact absurd hr3 (by simp)),
   (runFiles_abort_on_error [Except.ok ["a"], Except.error ExtractError.unreadable]).2
     ExtractError.unreadable (by simp)⟩

/-- C8: for every body parser and every HTTP outcome, `get_definitions` never
raises to its caller: a transport error maps to `None`, a non-200 status maps
to `None`, a malformed body on a 200 response maps to `None`, and only a
well-formed 200 body yields a value. -/
theorem get_definitions_fail_soft {α : Type} (parseJson : String → Option α) :
    get_definitions parseJson HttpResult.transportError = none ∧
    (∀ s b, s ≠ 200 → get_definitions parseJson (HttpResult.response s b) = none) ∧
    (∀ b, parseJson b = none → get_definitions parseJson (HttpResult.response 200 b) = none) ∧
    (∀ b v, parseJson b = some v →
      get_definitions parseJson (HttpResult.response 200 b) = some v) := by
  refine ⟨rfl, ?_, ?_, ?_⟩
  · intro s b hs
    have hb : (s == 200) = false := by simpa using hs
    simp [get_definitions, getDefinitionsAttempt, hb]
  · intro b hb
    simp [get_definitions, getDefinitionsAttempt, hb]
  · intro b v hb
    simp [get_definitions, getDefinitionsAttempt, hb]

/-- Witness for C8 with the sample parser `demoParse` on all four outcome
shapes. -/
theorem get_definitions_fail_soft_witness :
    get_definitions demoParse HttpResult.transportError = none ∧
    get_definitions demoParse (HttpResult.response 404 "x") = none ∧
    get_definitions demoParse (HttpResult.response 200 "bad") = none ∧
    get_definitions demoParse (HttpResult.response 200 "ok") = some () :=
  ⟨(get_definitions_fail_soft demoParse).1,
   (get_definitions_fail_soft demoParse).2.1 404 "x" (by decide),
   (get_definitions_fail_soft demoParse).2.2.1 "bad" (by decide),
   (get_definitions_fail_soft demoParse).2.2.2 "ok" () (by decide)⟩

/-- C9: for the English variant with stopwords `{"the", "on"}` and an empty
custom filter, processing `"The Cat sat on THE mat"` — lowercasing, then
extracting maximal runs of word characters, then filtering — yields exactly
`["cat", "sat", "mat"]` in that order (stopword matching works on the
lowercased text, so `THE` is caught), and a punctuation-only text produces no
token. -/
theorem clean_text_example_en :
    clean_text ["the", "on"] [] "The Cat sat on THE mat" = ["cat", "sat", "mat"] ∧
    findWords "?!, .;" = [] := by decide

/-- C10: for every input text, converter, stopword set and custom set, if
every token the external segmenter returns is a contiguous substring of its
input containing no space character, then every token produced by
`process_content` is non-empty, has character length at least two, and
consists solely of characters in the CJK range U+4E00 to U+9FFF. -/
theorem process_content_token_invariant (convert : String → String)
    (cut : String → List String) (stop custom : List String) (text : String)
    (hcut : ∀ w ∈ cut (rangeFilter (convert text)),
      (∃ p q, (rangeFilter (convert text)).data = p ++ w.data ++ q) ∧ ' ' ∉ w.data) :
    ∀ w ∈ process_content convert cut stop custom text,
      w ≠ "" ∧ 2 ≤ w.length ∧ ∀ c ∈ w.data, inCJK c = true := by
  intro w hw
  have hw' : w ∈ cut (rangeFilter (convert text)) ∧ 1 < w.length := by
    have hmem := hw
    simp only [process_content, filterTokensZh, List.mem_filter, Bool.and_eq_true,
      decide_eq_true_eq] at hmem
    exact ⟨hmem.1, hmem.2.1.1⟩
  obtain ⟨hwcut, hlen⟩ := hw'
  obtain ⟨⟨p, q, hpq⟩, hnospace⟩ := hcut w hwcut
  refine ⟨?_, by omega, ?_⟩
  · intro hempty
    rw [hempty] at hlen
    exact absurd hlen (by decide)
  · intro c hc
    have hcmem : c ∈ (rangeFilter (convert text)).data := by
      rw [hpq]
      exact List.mem_append.mpr (Or.inl (List.mem_append.mpr (Or.inr hc)))
    rw [rangeFilter] at hcmem
    obtain ⟨c', _, hc'⟩ := List.mem_map.mp hcmem
    by_cases hck : inCJK c'
    · rw [if_pos hck] at hc'
      rw [← hc']
      exact hck
    · rw [if_neg hck] at hc'
      rw [← hc'] at hc
      exact absurd hc hnospace

/-- Witness for C10: identity converter, a segmenter returning its whole
input, empty filter sets and the text `"中文"`. -/
theorem process_content_token_invariant_witness :
    ("中文" : String) ≠ "" ∧ 2 ≤ ("中文" : String).length ∧
    ∀ c ∈ ("中文" : String).data, inCJK c = true :=
  process_content_token_invariant id (fun s => [s]) [] [] "中文"
    (by
      intro w hw
      rcases List.mem_cons.mp hw with rfl | hw2
      · exact ⟨⟨[], [], by simp⟩, by decide⟩
      · exact absurd hw2 (by simp))
    "中文" (by decide)

end Frequency
